import Mathlib

/-!
Verification of the structural machinery in `mjx/_src/dataclasses.py`:
type-driven pytree field classification and flatten/unflatten, path-based
`tree_replace`, and the masked compaction engine `filter_k` / `fill`.

The shallow embedding models jax/numpy arrays over an entity axis as
`List Int` (per-entity scalar values); `jax.lax.associative_scan jp.add`
is an inclusive prefix sum, and `jax.ops.segment_sum` with `num_segments=k`
sums every value whose destination index equals `j` into output slot
`j ∈ [0, k)`, dropping out-of-range destinations.
-/

namespace Mjx

/-- Cast of a boolean mask entry to an integer count, models
`jp.array(mask, dtype=jp.int32)` entrywise. -/
def b2n (b : Bool) : Nat := if b then 1 else 0

/-- Inclusive prefix sum with running carry `c`; `scanAdd 0` models
`jax.lax.associative_scan(jp.add, ...)`. -/
def scanAdd (c : Nat) : List Nat → List Nat
  | [] => []
  | x :: xs => (c + x) :: scanAdd (c + x) xs

/-- Destination index of each entity, models
`index = jp.where(mask, index - 1, k + 1)` where `index` is the inclusive
scan of the mask: a true-masked entity goes to (number of true entries
strictly before it), a false-masked entity to the overflow bucket `k+1`. -/
def destIndex (mask : List Bool) (k : Nat) : List Nat :=
  List.zipWith (fun m s => if m then s - 1 else k + 1) mask (scanAdd 0 (mask.map b2n))

/-- Models `jax.ops.segment_sum(x, idx, num_segments=k)`: output slot `j`
holds the sum of the values of `x` whose destination index is `j`. -/
def segSum (x : List Int) (idx : List Nat) (k : Nat) : List Int :=
  (List.range k).map fun j =>
    ((x.zip idx).foldr (fun p acc => if p.2 = j then p.1 + acc else acc) 0)

/-- Models `index[-1]`, the last element of the inclusive scan (total count
of true mask entries). -/
def lastVal (l : List Nat) : Nat := l.getLastD 0

/-- Models `fill_mask = (1 - (jp.arange(k) < last)).astype(bool)`. -/
def fillMask (mask : List Bool) (k : Nat) : List Bool :=
  (List.range k).map fun j => !(decide (j < lastVal (scanAdd 0 (mask.map b2n))))

/-- Models `filter_k(tree, mask, k)`: a tree is a list of leaf arrays
sharing the leading entity axis; each leaf is scattered by `segSum` over
the destination indices, and the fill-mask is returned alongside. -/
def filter_k (tree : List (List Int)) (mask : List Bool) (k : Nat) :
    List (List Int) × List Bool :=
  (tree.map fun x => segSum x (destIndex mask k) k, fillMask mask k)

/-- Spec-side helper: the values of `x` at the true positions of `mask`,
in ascending original-index order. -/
def maskedValues : List Bool → List Int → List Int
  | true :: ms, a :: xs => a :: maskedValues ms xs
  | false :: ms, _ :: xs => maskedValues ms xs
  | _, _ => []

/-- Spec-side helper: the number of true entries of a mask. -/
def countTrue (mask : List Bool) : Nat := (mask.filter id).length

/-- Cast of a boolean to an integer coefficient, models the
`(1 - mask) * x + mask * d` arithmetic in `fill`. -/
def b2i (b : Bool) : Int := if b then 1 else 0

/-- Models `_fill(x, d)` on one leaf: `(1 - mask) * x + mask * d`
entrywise along the entity axis. -/
def fillLeaf (fm : List Bool) (x d : List Int) : List Int :=
  List.zipWith (fun m p => (1 - b2i m) * p.1 + b2i m * p.2) fm (List.zip x d)

/-- Models `fill(tree, default, fill_mask) = jax.tree_map(_fill, tree, default)`. -/
def fill (tree default : List (List Int)) (fill_mask : List Bool) :
    List (List Int) :=
  List.zipWith (fun x d => fillLeaf fill_mask x d) tree default

/-!
Model of the declared field types inspected by `_jax_in_args`:
`jaxArray` is `jax.Array`, `ndarray` is `np.ndarray` (static, carried as
raw bytes plus dtype and shape), `dcOf fs` is a nested dataclass whose
fields have types `fs`, `containerOf ts` is a parameterized type whose
`typing.get_origin` is one of `list`, `dict`, `Union`, `set` with
`typing.get_args ts`, and `other` is any other type (scalars, enums,
`Any`, tuples, ...).
-/

inductive PyType where
  | jaxArray
  | ndarray
  | dcOf (fs : List PyType)
  | containerOf (args : List PyType)
  | other

mutual

/-- Models `_jax_in_args(typ)`: true iff the declared type is `jax.Array`
or transitively contains it through dataclass fields or
list/dict/Union/set type arguments. -/
def jaxInArgs : PyType → Bool
  | .jaxArray => true
  | .ndarray => false
  | .other => false
  | .dcOf fs => jaxInArgsList fs
  | .containerOf ts => jaxInArgsList ts

/-- Models the `any(_jax_in_args(t) for t in ...)` generator over a list
of contained types. -/
def jaxInArgsList : List PyType → Bool
  | [] => false
  | t :: ts => jaxInArgs t || jaxInArgsList ts

end

/-- Models the identity test `field.type is np.ndarray` in `from_meta`. -/
def isNdarray : PyType → Bool
  | .ndarray => true
  | _ => false

/-- Spec-side predicate, following the spec's words for C4: a declared
type "is the numeric-array type or transitively contains it through
nested record types, homogeneous sequence types, mapping types, or union
types". -/
inductive ContainsArray : PyType → Prop where
  | jaxArr : ContainsArray .jaxArray
  | inDc {t : PyType} {fs : List PyType} :
      t ∈ fs → ContainsArray t → ContainsArray (.dcOf fs)
  | inContainer {t : PyType} {ts : List PyType} :
      t ∈ ts → ContainsArray t → ContainsArray (.containerOf ts)

/-- Models `data_fields`: the declared fields (name, type) whose type
contains a jax.Array, in declared order (the source builds this list in
one pass over `dataclasses.fields`). -/
def dataFields (fs : List (String × PyType)) : List (String × PyType) :=
  fs.filter fun f => jaxInArgs f.2

/-- Models `meta_fields`: the remaining declared fields, in declared order. -/
def metaFields (fs : List (String × PyType)) : List (String × PyType) :=
  fs.filter fun f => !jaxInArgs f.2

/-!
Model of one level of field values for flatten/unflatten. `jarr` is a
`jax.Array` leaf (dynamic), `nparr bytes dtype shape` is a `np.ndarray`
instance (its C-order byte buffer, dtype tag and shape), `tup3` is the
plain Python tuple `(bytes, dtype, shape)` produced by `to_meta`, and
`atom` is any other (hashable) value, treated opaquely. Field names are
dropped: the kwargs-by-name reconstruction in `clz_from_iterable` is,
for distinct field names, the same as positional reassembly by
classification.
-/

inductive MVal where
  | jarr (data : List Int)
  | nparr (bytes : List Int) (dtype : Nat) (shape : List Nat)
  | tup3 (bytes : List Int) (dtype : Nat) (shape : List Nat)
  | atom (n : Nat)
deriving DecidableEq

/-- Models `isinstance(val, np.ndarray)`: whether a runtime value is a
numpy array. -/
def isNparr : MVal → Bool
  | .nparr _ _ _ => true
  | _ => false

/-- Models `to_meta`: a numpy array value is replaced by the tuple of its
raw bytes, dtype and shape (`val.tobytes(), val.dtype, val.shape`); any
other value is passed through unchanged. The branch is on the runtime
value (`isinstance(val, np.ndarray)`), not the declared type. -/
def toMeta : MVal → MVal
  | .nparr b d s => .tup3 b d s
  | v => v

/-- Models `from_meta`: when the declared field type is `np.ndarray` the
metadata tuple is decoded by `np.frombuffer(meta[0], dtype=meta[1]).reshape(meta[2])`
(which inverts `tobytes` exactly); `none` models the exception Python
raises when the metadata is not such a tuple. For any other declared
type the metadata value is passed through unchanged. The branch is on
the declared type (`field.type is np.ndarray`), not the runtime value. -/
def fromMeta (t : PyType) (m : MVal) : Option MVal :=
  if isNdarray t then
    match m with
    | .tup3 b d s => some (.nparr b d s)
    | _ => none
  else
    some m

/-- Models `iterate_clz_with_keys` on one record: walking the declared
fields in order, dynamic-field values go to the data leaves (in declared
order) and static-field values go through `to_meta` to the metadata
tuple (in declared order). -/
def flattenDC : List PyType → List MVal → List MVal × List MVal
  | [], _ => ([], [])
  | _, [] => ([], [])
  | t :: ts, v :: vs =>
    let r := flattenDC ts vs
    if jaxInArgs t then (v :: r.1, r.2) else (r.1, toMeta v :: r.2)

/-- Models `clz_from_iterable(meta, data)`: each declared field, in
order, takes the next data leaf if dynamic, else the next metadata value
decoded by `from_meta`; `none` models a Python exception during
reconstruction. -/
def unflattenDC : List PyType → List MVal → List MVal → Option (List MVal)
  | [], _, _ => some []
  | t :: ts, meta, data =>
    if jaxInArgs t then
      match data with
      | [] => none
      | v :: ds =>
        match unflattenDC ts meta ds with
        | some rest => some (v :: rest)
        | none => none
    else
      match meta with
      | [] => none
      | m :: ms =>
        match fromMeta t m with
        | none => none
        | some v =>
          match unflattenDC ts ms data with
          | some rest => some (v :: rest)
          | none => none

/-!
Model of record instances for `tree_replace`. `intv` is a scalar-like
Python value with no `__iter__`, `node` is a frozen dataclass instance
with named fields, `listv` is a Python list (it has `__iter__` and
supports indexing). Error values model the exceptions Python raises:
`unknownField` for `AttributeError`/`TypeError` from `getattr` or
`dataclasses.replace` on a missing field, `lengthMismatch` for the
`IndexError` from `val[i]` when a per-element value sequence is too
short.
-/

inductive TRErr where
  | unknownField
  | lengthMismatch
deriving DecidableEq

inductive RVal where
  | intv (n : Int)
  | node (fields : List (String × RVal))
  | listv (elems : List RVal)

/-- Models `getattr(instance, f)` on a dataclass: the value of the first
field named `f`, if any. -/
def getField : List (String × RVal) → String → Option RVal
  | [], _ => none
  | (n, w) :: fs, f => if n = f then some w else getField fs f

/-- Models `dataclasses.replace(instance, **{f: v})` on the field list:
the named field's value is replaced, all other fields are untouched. -/
def setField : List (String × RVal) → String → RVal → List (String × RVal)
  | [], _, _ => []
  | (n, w) :: fs, f, v => if n = f then (n, v) :: fs else (n, w) :: setField fs f v

/-- Whether the dataclass declares a field named `f`. -/
def hasField (fs : List (String × RVal)) (f : String) : Bool :=
  (getField fs f).isSome

/-- Models `hasattr(g, f)`: only a dataclass instance with a declared
field `f` has the attribute. -/
def hasAttr : RVal → String → Bool
  | .node fs, f => hasField fs f
  | _, _ => false

/-- Models `hasattr(val, '__iter__')`: of the modelled values only
Python lists are iterable. -/
def hasIter : RVal → Bool
  | .listv _ => true
  | _ => false

/-- Models `val[i]`: indexing a list, raising `IndexError` (modelled as
`lengthMismatch`) when `i` is out of range. Only called on values with
`__iter__`, so the non-list branch is unreachable. -/
def indexVal : RVal → Nat → Except TRErr RVal
  | .listv es, i =>
    match es.get? i with
    | some v => .ok v
    | none => .error .lengthMismatch
  | v, _ => .ok v

mutual

/-- Models `_tree_replace(base, attr, val)`. With an empty segment list
it returns `base`. With more than one remaining segment and a list-valued
first field, every element of the list that has the next attribute is
rewritten recursively (elements lacking it are skipped), indexing `val`
per element when `val` is iterable; otherwise it descends into the named
field, and at the final segment replaces it via `replace`. -/
def treeReplace1 : RVal → List String → RVal → Except TRErr RVal
  | base, [], _ => .ok base
  | base, [a], val =>
    match base with
    | .node fs =>
      if hasField fs a then .ok (.node (setField fs a val))
      else .error .unknownField
    | _ => .error .unknownField
  | base, a :: r1 :: rtail, val =>
    match base with
    | .node fs =>
      match getField fs a with
      | none => .error .unknownField
      | some (.listv lst) =>
        (replaceElems lst 0 (r1 :: rtail) r1 val).map fun lst2 =>
          .node (setField fs a (.listv lst2))
      | some fv =>
        (treeReplace1 fv (r1 :: rtail) val).map fun nv =>
          .node (setField fs a nv)
    | _ => .error .unknownField
termination_by base attr val => (attr.length, 0, 0)

/-- Models the `for i, g in enumerate(lst)` loop in the list branch of
`_tree_replace`: element `i` is skipped when it lacks the next attribute,
else rewritten with `val` (broadcast) or `val[i]` (per element). -/
def replaceElems : List RVal → Nat → List String → String → RVal → Except TRErr (List RVal)
  | [], _, _, _, _ => .ok []
  | g :: gs, i, rest, r1, val =>
    if hasAttr g r1 then
      match (if hasIter val then indexVal val i else .ok val) with
      | .error e => .error e
      | .ok v =>
        match treeReplace1 g rest v with
        | .error e => .error e
        | .ok g2 =>
          (replaceElems gs (i + 1) rest r1 val).map fun gs2 => g2 :: gs2
    else
      (replaceElems gs (i + 1) rest r1 val).map fun gs2 => g :: gs2
termination_by gs i rest r1 val => (rest.length, 1, gs.length)

end

/-- Models Python's `s.split('.')` on the character list: note that
splitting the empty string yields `[[]]` (one empty segment), exactly as
`''.split('.') == ['']` in Python. -/
def splitDotChars : List Char → List (List Char)
  | [] => [[]]
  | c :: cs =>
    if c = '.' then [] :: splitDotChars cs
    else
      match splitDotChars cs with
      | r :: rs => (c :: r) :: rs
      | [] => [[c]]

/-- Models `k.split('.')` for a path string. -/
def splitDot (s : String) : List String :=
  (splitDotChars s.data).map String.mk

/-- Models `PyTreeNode.tree_replace(params)`: folds `_tree_replace` over
the path/value pairs in order, splitting each path on dots; an exception
raised by any step aborts the whole call. -/
def tree_replace (base : RVal) (params : List (String × RVal)) : Except TRErr RVal :=
  params.foldl
    (fun acc p =>
      match acc with
      | .ok b => treeReplace1 b (splitDot p.1) p.2
      | .error e => .error e)
    (.ok base)

/-- Spec-side helper: replace field `f` of a record value with `v`
(identity on non-records); used to state what the list branch does to
every element. -/
def setFieldV : RVal → String → RVal → RVal
  | .node fs, f, v => .node (setField fs f v)
  | g, _, _ => g

/-!
Lemmas about the compaction engine.
-/

theorem maskedValues_nil (x : List Int) : maskedValues [] x = [] := by
  cases x <;> rfl

theorem maskedValues_true (ms : List Bool) (a : Int) (xs : List Int) :
    maskedValues (true :: ms) (a :: xs) = a :: maskedValues ms xs := rfl

theorem maskedValues_false (ms : List Bool) (a : Int) (xs : List Int) :
    maskedValues (false :: ms) (a :: xs) = maskedValues ms xs := rfl

/-- The heart of `filter_k` on one leaf: the `segment_sum` accumulator for
output slot `j < k`, over destinations computed from an inclusive scan
started at carry `c`, picks out exactly the `(j - c)`-th true-masked value
(and `0` when there is none). -/
theorem foldrZip_eq (k : Nat) (mask : List Bool) :
    ∀ (x : List Int) (c j : Nat), j < k → mask.length = x.length →
    ((x.zip (List.zipWith (fun m s => if m then s - 1 else k + 1) mask
        (scanAdd c (mask.map b2n)))).foldr
      (fun p acc => if p.2 = j then p.1 + acc else acc) 0)
    = if c ≤ j then (maskedValues mask x).getD (j - c) 0 else 0 := by
  induction mask with
  | nil =>
    intro x c j hj hlen
    have hx : x = [] := by cases x <;> simp_all
    subst hx
    simp [maskedValues_nil, scanAdd]
  | cons m ms ih =>
    intro x c j hj hlen
    cases x with
    | nil => simp at hlen
    | cons a xs =>
      have hlen' : ms.length = xs.length := by simpa using hlen
      cases m with
      | true =>
        simp only [List.map_cons, scanAdd, List.zipWith_cons_cons, List.zip_cons_cons,
          List.foldr_cons, b2n, if_true, maskedValues_true, Nat.add_sub_cancel]
        rw [ih xs (c + 1) j hj hlen']
        rcases Nat.lt_trichotomy c j with h | h | h
        · have h1 : c ≠ j := Nat.ne_of_lt h
          have h2 : c + 1 ≤ j := h
          have h3 : c ≤ j := Nat.le_of_lt h
          have h4 : j - c = (j - (c + 1)) + 1 := by omega
          simp [h1, h2, h3, h4]
        · subst h
          have h2 : ¬ (c + 1 ≤ c) := by omega
          simp [h2]
        · have h1 : c ≠ j := by omega
          have h2 : ¬ (c + 1 ≤ j) := by omega
          have h3 : ¬ (c ≤ j) := by omega
          simp [h1, h2, h3]
      | false =>
        have hk : ¬ ((k + 1 : Nat) = j) := by omega
        simp only [List.map_cons, scanAdd, List.zipWith_cons_cons, List.zip_cons_cons,
          List.foldr_cons, b2n, Bool.false_eq_true, if_false, Nat.add_zero, hk,
          maskedValues_false]
        exact ih xs c j hj hlen'

/-- On one leaf, `segment_sum` over the scan destinations produces, slot
by slot, the true-masked values in ascending original order, with `0` in
slots that receive no entity. -/
theorem segSum_destIndex (mask : List Bool) (x : List Int) (k : Nat)
    (hlen : mask.length = x.length) :
    segSum x (destIndex mask k) k
      = (List.range k).map fun j => (maskedValues mask x).getD j 0 := by
  unfold segSum destIndex
  apply List.map_congr_left
  intro j hj
  have hjk : j < k := List.mem_range.mp hj
  have := foldrZip_eq k mask x 0 j hjk hlen
  simpa using this

theorem maskedValues_length (mask : List Bool) :
    ∀ x : List Int, mask.length = x.length →
    (maskedValues mask x).length = countTrue mask := by
  induction mask with
  | nil => intro x _; simp [maskedValues_nil, countTrue]
  | cons m ms ih =>
    intro x hlen
    cases x with
    | nil => simp at hlen
    | cons a xs =>
      have hlen' : ms.length = xs.length := by simpa using hlen
      cases m with
      | true =>
        have := ih xs hlen'
        simp [maskedValues_true, countTrue, List.filter] at *
        omega
      | false =>
        have := ih xs hlen'
        simp [maskedValues_false, countTrue, List.filter] at *
        omega

theorem sum_b2n (mask : List Bool) : (mask.map b2n).sum = countTrue mask := by
  induction mask with
  | nil => simp [countTrue]
  | cons m ms ih =>
    cases m <;> simp [b2n, countTrue, List.filter] at * <;> omega

theorem scanAdd_getLastD (l : List Nat) : ∀ c : Nat, (scanAdd c l).getLastD c = c + l.sum := by
  induction l with
  | nil => intro c; simp [scanAdd]
  | cons x xs ih =>
    intro c
    simp only [scanAdd, List.getLastD_cons]
    rw [ih (c + x)]
    simp [List.sum_cons]
    omega

theorem lastVal_scan (mask : List Bool) :
    lastVal (scanAdd 0 (mask.map b2n)) = countTrue mask := by
  unfold lastVal
  have := scanAdd_getLastD (mask.map b2n) 0
  simpa [sum_b2n] using this

theorem fillMask_length (mask : List Bool) (k : Nat) : (fillMask mask k).length = k := by
  simp [fillMask]

theorem fillMask_getD (mask : List Bool) (k j : Nat) (hj : j < k) :
    (fillMask mask k).getD j false = decide (countTrue mask ≤ j) := by
  unfold fillMask
  rw [List.getD_eq_getElem _ _ (by simp [hj])]
  simp only [List.getElem_map, List.getElem_range, lastVal_scan]
  rcases Nat.lt_or_ge j (countTrue mask) with h | h
  · simp [h, Nat.not_le.mpr h]
  · simp [h, Nat.not_lt.mpr h]

/-- Reading the first `min l.length k` slots of the compacted layout
recovers `l.take k`. -/
theorem rangeMap_getD_take (l : List Int) (k : Nat) :
    (((List.range k).map fun j => l.getD j 0).take (min l.length k)) = l.take k := by
  apply List.ext_getElem
  · simp
    omega
  · intro i h1 h2
    have hik : i < k := by simp at h1; omega
    have hil : i < l.length := by simp at h1; omega
    simp [List.getElem_take, List.getElem_map, List.getElem_range,
      List.getD_eq_getElem l 0 hil, List.getElem?_eq_getElem hil]

/-- C2: for a tree of leaves sharing the entity axis (length of `mask`),
`filter_k` returns leaves of entity dimension `k` whose first
`min (count_true mask) k` entries are exactly the true-masked entities in
ascending original-index order, and a fill-mask of length `k` whose
position `j < k` is true iff `j ≥ min (count_true mask) k`; when the true
count exceeds `k` the excess entities are simply absent (the model is
total, so no error is possible). -/
theorem filter_k_spec (tree : List (List Int)) (mask : List Bool) (k : Nat)
    (hlen : ∀ x ∈ tree, x.length = mask.length) :
    (filter_k tree mask k).1.length = tree.length
    ∧ (∀ y ∈ (filter_k tree mask k).1, y.length = k)
    ∧ (filter_k tree mask k).2.length = k
    ∧ (∀ i, i < tree.length →
        (((filter_k tree mask k).1.getD i []).take (min (countTrue mask) k)
          = (maskedValues mask (tree.getD i [])).take k))
    ∧ (∀ j, j < k →
        (filter_k tree mask k).2.getD j false
          = decide (min (countTrue mask) k ≤ j)) := by
  refine ⟨by simp [filter_k], ?_, fillMask_length mask k, ?_, ?_⟩
  · intro y hy
    simp only [filter_k, List.mem_map] at hy
    obtain ⟨x, _, rfl⟩ := hy
    simp [segSum]
  · intro i hi
    have hmem : tree.getD i [] ∈ tree := by
      rw [List.getD_eq_getElem tree [] hi]
      exact List.getElem_mem hi
    have hxl : mask.length = (tree.getD i []).length := (hlen _ hmem).symm
    have h1 : (filter_k tree mask k).1.getD i []
        = segSum (tree.getD i []) (destIndex mask k) k := by
      simp only [filter_k]
      rw [List.getD_eq_getElem _ _ (by simp [hi]), List.getElem_map,
        List.getD_eq_getElem tree [] hi]
    rw [h1, segSum_destIndex mask _ k hxl,
      ← maskedValues_length mask (tree.getD i []) hxl]
    exact rangeMap_getD_take _ k
  · intro j hj
    have h2 : (filter_k tree mask k).2 = fillMask mask k := rfl
    rw [h2, fillMask_getD mask k j hj]
    exact decide_eq_decide.mpr (by omega)

/-- Witness for C2 at the spec's worked example: entity values
`[10, 20, 30, 40]`, mask `[false, true, false, true]`, capacity 3. -/
theorem filter_k_spec_witness :
    (∀ x ∈ ([[10, 20, 30, 40]] : List (List Int)),
      x.length = [false, true, false, true].length)
    ∧ ((filter_k [[10, 20, 30, 40]] [false, true, false, true] 3).1.length = 1
      ∧ (∀ y ∈ (filter_k [[10, 20, 30, 40]] [false, true, false, true] 3).1,
          y.length = 3)
      ∧ (filter_k [[10, 20, 30, 40]] [false, true, false, true] 3).2.length = 3
      ∧ (∀ i, i < ([[10, 20, 30, 40]] : List (List Int)).length →
          (((filter_k [[10, 20, 30, 40]] [false, true, false, true] 3).1.getD i []).take
              (min (countTrue [false, true, false, true]) 3)
            = (maskedValues [false, true, false, true]
                (([[10, 20, 30, 40]] : List (List Int)).getD i [])).take 3))
      ∧ (∀ j, j < 3 →
          (filter_k [[10, 20, 30, 40]] [false, true, false, true] 3).2.getD j false
            = decide (min (countTrue [false, true, false, true]) 3 ≤ j))) :=
  ⟨by decide, filter_k_spec [[10, 20, 30, 40]] [false, true, false, true] 3 (by decide)⟩

/-- C10: every output slot whose fill-mask bit is true holds exactly the
value zero in every leaf, because no entity's destination index maps to
it and `segment_sum` zero-initializes its output. -/
theorem filter_k_zero_slots (tree : List (List Int)) (mask : List Bool) (k : Nat)
    (hlen : ∀ x ∈ tree, x.length = mask.length) :
    ∀ y ∈ (filter_k tree mask k).1, ∀ j : Nat,
      (filter_k tree mask k).2.getD j false = true → y.getD j 0 = 0 := by
  intro y hy j hfm
  simp only [filter_k, List.mem_map] at hy
  obtain ⟨x, hx, rfl⟩ := hy
  by_cases hj : j < k
  · have hcount : countTrue mask ≤ j := by
      have := fillMask_getD mask k j hj
      have h2 : (filter_k tree mask k).2 = fillMask mask k := rfl
      rw [h2, this] at hfm
      exact of_decide_eq_true hfm
    rw [segSum_destIndex mask x k (hlen x hx).symm]
    rw [List.getD_eq_getElem _ _ (by simp [hj])]
    simp only [List.getElem_map, List.getElem_range]
    apply List.getD_eq_default
    rw [maskedValues_length mask x (hlen x hx).symm]
    exact hcount
  · apply List.getD_eq_default
    simp [segSum]
    omega

/-- Witness for C10 at the spec's worked example. -/
theorem filter_k_zero_slots_witness :
    (∀ x ∈ ([[10, 20, 30, 40]] : List (List Int)),
      x.length = [false, true, false, true].length)
    ∧ (∀ y ∈ (filter_k [[10, 20, 30, 40]] [false, true, false, true] 3).1, ∀ j : Nat,
        (filter_k [[10, 20, 30, 40]] [false, true, false, true] 3).2.getD j false = true →
        y.getD j 0 = 0) :=
  ⟨by decide,
    filter_k_zero_slots [[10, 20, 30, 40]] [false, true, false, true] 3 (by decide)⟩

theorem fillLeaf_length (fm : List Bool) (x d : List Int) :
    (fillLeaf fm x d).length = min fm.length (min x.length d.length) := by
  simp [fillLeaf]

/-- Pointwise behaviour of `_fill` on one leaf: `(1 - m) * x + m * d`
with `m ∈ {0, 1}` selects `d` where the mask is true and `x` where it is
false. -/
theorem fillLeaf_getD (fm : List Bool) :
    ∀ (x d : List Int), x.length = fm.length → d.length = fm.length →
    ∀ j, j < fm.length →
    (fillLeaf fm x d).getD j 0
      = if fm.getD j false then d.getD j 0 else x.getD j 0 := by
  induction fm with
  | nil =>
    intro x d _ _ j hj
    exact absurd hj (by simp)
  | cons m ms ih =>
    intro x d hx hd j hj
    cases x with
    | nil => simp at hx
    | cons a xs =>
      cases d with
      | nil => simp at hd
      | cons b ds =>
        cases j with
        | zero =>
          cases m <;> simp [fillLeaf, b2i]
        | succ n =>
          have hx' : xs.length = ms.length := by simpa using hx
          have hd' : ds.length = ms.length := by simpa using hd
          have hn : n < ms.length := by simpa using hj
          simp only [fillLeaf, List.zip_cons_cons, List.zipWith_cons_cons,
            List.getD_cons_succ]
          exact ih xs ds hx' hd' n hn

/-- C3: `fill(tree, default, fill_mask)` replaces, in every leaf, each
entity position where the fill-mask is true by the default's value at
that position and keeps the tree's value elsewhere; each output position
depends only on the same position of the inputs (no cross-entity
interaction), and shapes are preserved. -/
theorem fill_spec (tree default : List (List Int)) (fm : List Bool)
    (htd : tree.length = default.length)
    (ht : ∀ x ∈ tree, x.length = fm.length)
    (hd : ∀ d ∈ default, d.length = fm.length) :
    (fill tree default fm).length = tree.length
    ∧ (∀ i, i < tree.length → ((fill tree default fm).getD i []).length = fm.length)
    ∧ (∀ i j, i < tree.length → j < fm.length →
        ((fill tree default fm).getD i []).getD j 0
          = if fm.getD j false then (default.getD i []).getD j 0
            else (tree.getD i []).getD j 0) := by
  have hflen : (fill tree default fm).length = tree.length := by
    simp [fill]
    omega
  have hleaf : ∀ i, i < tree.length →
      (fill tree default fm).getD i []
        = fillLeaf fm (tree.getD i []) (default.getD i []) := by
    intro i hi
    have hi2 : i < default.length := by omega
    simp only [fill]
    rw [List.getD_eq_getElem _ _ (by simp; omega), List.getElem_zipWith,
      List.getD_eq_getElem tree [] hi, List.getD_eq_getElem default [] hi2]
  refine ⟨hflen, ?_, ?_⟩
  · intro i hi
    rw [hleaf i hi, fillLeaf_length]
    have h1 : (tree.getD i []).length = fm.length := by
      apply ht
      rw [List.getD_eq_getElem tree [] hi]
      exact List.getElem_mem hi
    have h2 : (default.getD i []).length = fm.length := by
      apply hd
      rw [List.getD_eq_getElem default [] (by omega)]
      exact List.getElem_mem (by omega)
    omega
  · intro i j hi hj
    rw [hleaf i hi]
    apply fillLeaf_getD
    · apply ht
      rw [List.getD_eq_getElem tree [] hi]
      exact List.getElem_mem hi
    · apply hd
      rw [List.getD_eq_getElem default [] (by omega)]
      exact List.getElem_mem (by omega)
    · exact hj

/-- Witness for C3 at the spec's worked example: filling the compacted
tree `[20, 40, 0]` with default `[0, 0, 0]` under fill-mask
`[false, false, true]`. -/
theorem fill_spec_witness :
    (([[20, 40, 0]] : List (List Int)).length = [[0, 0, 0]].length
      ∧ (∀ x ∈ ([[20, 40, 0]] : List (List Int)), x.length = [false, false, true].length)
      ∧ (∀ d ∈ ([[0, 0, 0]] : List (List Int)), d.length = [false, false, true].length))
    ∧ ((fill [[20, 40, 0]] [[0, 0, 0]] [false, false, true]).length = 1
      ∧ (∀ i, i < ([[20, 40, 0]] : List (List Int)).length →
          ((fill [[20, 40, 0]] [[0, 0, 0]] [false, false, true]).getD i []).length = 3)
      ∧ (∀ i j, i < ([[20, 40, 0]] : List (List Int)).length → j < 3 →
          ((fill [[20, 40, 0]] [[0, 0, 0]] [false, false, true]).getD i []).getD j 0
            = if [false, false, true].getD j false
              then (([[0, 0, 0]] : List (List Int)).getD i []).getD j 0
              else (([[20, 40, 0]] : List (List Int)).getD i []).getD j 0)) :=
  ⟨⟨by decide, by decide, by decide⟩,
    fill_spec [[20, 40, 0]] [[0, 0, 0]] [false, false, true]
      (by decide) (by decide) (by decide)⟩

/-!
Lemmas about field classification and the flatten/unflatten pair.
-/

theorem jaxInArgsList_eq_any (l : List PyType) : jaxInArgsList l = l.any jaxInArgs := by
  induction l with
  | nil => rfl
  | cons t ts ih => simp [jaxInArgsList, List.any_cons, ih]

theorem containsArray_jaxInArgs {t : PyType} (h : ContainsArray t) :
    jaxInArgs t = true := by
  induction h with
  | jaxArr => rfl
  | inDc hmem _ ih =>
    show jaxInArgsList _ = true
    rw [jaxInArgsList_eq_any]
    exact List.any_eq_true.mpr ⟨_, hmem, ih⟩
  | inContainer hmem _ ih =>
    show jaxInArgsList _ = true
    rw [jaxInArgsList_eq_any]
    exact List.any_eq_true.mpr ⟨_, hmem, ih⟩

theorem jaxInArgs_containsArray : ∀ t : PyType, jaxInArgs t = true → ContainsArray t := by
  have key : ∀ (n : Nat) (t : PyType), sizeOf t ≤ n → jaxInArgs t = true → ContainsArray t := by
    intro n
    induction n with
    | zero =>
      intro t ht _
      exfalso
      cases t <;> simp at ht
    | succ n ih =>
      intro t ht h
      cases t with
      | jaxArray => exact .jaxArr
      | ndarray => simp [jaxInArgs] at h
      | other => simp [jaxInArgs] at h
      | dcOf fs =>
        have h2 : fs.any jaxInArgs = true := by
          rw [← jaxInArgsList_eq_any]
          exact h
        obtain ⟨u, hu, hju⟩ := List.any_eq_true.mp h2
        have hs : sizeOf u ≤ n := by
          have h3 := List.sizeOf_lt_of_mem hu
          have h4 : sizeOf (PyType.dcOf fs) = 1 + sizeOf fs := by simp
          omega
        exact .inDc hu (ih u hs hju)
      | containerOf ts =>
        have h2 : ts.any jaxInArgs = true := by
          rw [← jaxInArgsList_eq_any]
          exact h
        obtain ⟨u, hu, hju⟩ := List.any_eq_true.mp h2
        have hs : sizeOf u ≤ n := by
          have h3 := List.sizeOf_lt_of_mem hu
          have h4 : sizeOf (PyType.containerOf ts) = 1 + sizeOf ts := by simp
          omega
        exact .inContainer hu (ih u hs hju)
  intro t
  exact key (sizeOf t) t (Nat.le_refl _)

/-- C4: a declared field is classified dynamic iff its declared type is,
or transitively contains, the numeric-array type (through nested records
and list/dict/union/set containers), and static otherwise; the two lists
cover every declared field and do not overlap, and membership is a
function of the declared type alone (instance contents never enter the
model). -/
theorem classification_spec (fs : List (String × PyType)) (f : String × PyType)
    (hf : f ∈ fs) :
    (f ∈ dataFields fs ↔ ContainsArray f.2)
    ∧ (f ∈ metaFields fs ↔ ¬ ContainsArray f.2)
    ∧ ¬ (f ∈ dataFields fs ∧ f ∈ metaFields fs) := by
  have hiff : jaxInArgs f.2 = true ↔ ContainsArray f.2 :=
    ⟨jaxInArgs_containsArray f.2, containsArray_jaxInArgs⟩
  refine ⟨?_, ?_, ?_⟩
  · rw [dataFields, List.mem_filter]
    constructor
    · intro hmem
      exact hiff.mp hmem.2
    · intro hc
      exact ⟨hf, hiff.mpr hc⟩
  · rw [metaFields, List.mem_filter]
    constructor
    · intro hmem hc
      have := hiff.mpr hc
      simp [this] at hmem
    · intro hc
      refine ⟨hf, ?_⟩
      rcases hb : jaxInArgs f.2 with _ | _
      · simp
      · exact absurd (hiff.mp hb) hc
  · rintro ⟨h1, h2⟩
    rw [dataFields, List.mem_filter] at h1
    rw [metaFields, List.mem_filter] at h2
    rw [h1.2] at h2
    simp at h2

/-- Witness for C4: a two-field record type with one `jax.Array` field and
one `np.ndarray` field; the `jax.Array` field is dynamic. -/
theorem classification_spec_witness :
    (("q", PyType.jaxArray) ∈ [("q", PyType.jaxArray), ("s", PyType.ndarray)])
    ∧ ((("q", PyType.jaxArray) ∈ dataFields [("q", PyType.jaxArray), ("s", PyType.ndarray)]
          ↔ ContainsArray PyType.jaxArray)
      ∧ (("q", PyType.jaxArray) ∈ metaFields [("q", PyType.jaxArray), ("s", PyType.ndarray)]
          ↔ ¬ ContainsArray PyType.jaxArray)
      ∧ ¬ (("q", PyType.jaxArray) ∈ dataFields [("q", PyType.jaxArray), ("s", PyType.ndarray)]
          ∧ ("q", PyType.jaxArray) ∈ metaFields [("q", PyType.jaxArray), ("s", PyType.ndarray)])) :=
  ⟨List.mem_cons_self _ _,
    classification_spec [("q", PyType.jaxArray), ("s", PyType.ndarray)]
      ("q", PyType.jaxArray) (List.mem_cons_self _ _)⟩

/-- When a static field's value is a numpy array exactly when its declared
type is `np.ndarray`, decoding the metadata inverts encoding it. -/
theorem fromMeta_toMeta (t : PyType) (v : MVal) (h : isNparr v = isNdarray t) :
    fromMeta t (toMeta v) = some v := by
  cases t <;> cases v <;> simp_all [isNparr, isNdarray, toMeta, fromMeta]

/-- C1 counterexample: a record type with a single static field declared
`Union[np.ndarray, NoneType]` (i.e. `Optional[np.ndarray]`, which
`_jax_in_args` classifies static) holding a numpy array. `to_meta`
serializes the value by `isinstance`, but `from_meta` only rebuilds the
array when the declared type is exactly `np.ndarray`, so the round trip
returns the raw `(bytes, dtype, shape)` tuple instead of the array. -/
theorem flatten_roundtrip_cex :
    unflattenDC [PyType.containerOf [PyType.ndarray, PyType.other]]
        (flattenDC [PyType.containerOf [PyType.ndarray, PyType.other]]
          [MVal.nparr [7] 0 [1]]).2
        (flattenDC [PyType.containerOf [PyType.ndarray, PyType.other]]
          [MVal.nparr [7] 0 [1]]).1
      ≠ some [MVal.nparr [7] 0 [1]] := by
  decide

/-- C1 amended: `unflatten(*flatten(r)) == r` for every instance in which
each static field holds a numpy array exactly when the field's declared
type is the numpy-array type itself (in particular for all numpy-array
static fields declared as `np.ndarray`, carried as raw bytes plus dtype
and shape); dynamic leaves round-trip unconditionally. -/
theorem flatten_roundtrip (rt : List PyType) :
    ∀ vals : List MVal, vals.length = rt.length →
    (∀ p ∈ rt.zip vals, jaxInArgs p.1 = false → isNparr p.2 = isNdarray p.1) →
    unflattenDC rt (flattenDC rt vals).2 (flattenDC rt vals).1 = some vals := by
  induction rt with
  | nil =>
    intro vals hlen _
    have hv : vals = [] := by cases vals <;> simp_all
    subst hv
    rfl
  | cons t ts ih =>
    intro vals hlen hstat
    cases vals with
    | nil => simp at hlen
    | cons v vs =>
      have hlen' : vs.length = ts.length := by simpa using hlen
      have hstat' : ∀ p ∈ ts.zip vs, jaxInArgs p.1 = false → isNparr p.2 = isNdarray p.1 := by
        intro p hp
        exact hstat p (by simp [List.zip_cons_cons, hp])
      cases hjt : jaxInArgs t with
      | true =>
        simp only [flattenDC, unflattenDC, hjt, if_true]
        rw [ih vs hlen' hstat']
      | false =>
        have hv := hstat (t, v) (by simp [List.zip_cons_cons]) hjt
        simp only [flattenDC, unflattenDC, hjt, if_false, Bool.false_eq_true]
        rw [fromMeta_toMeta t v hv, ih vs hlen' hstat']

/-- Witness for C1 at a three-field record: a dynamic `jax.Array` field,
a static field declared and holding `np.ndarray`, and a plain static
scalar. -/
theorem flatten_roundtrip_witness :
    ([MVal.jarr [1, 2], MVal.nparr [3] 1 [1], MVal.atom 5].length
        = [PyType.jaxArray, PyType.ndarray, PyType.other].length)
    ∧ (∀ p ∈ [PyType.jaxArray, PyType.ndarray, PyType.other].zip
          [MVal.jarr [1, 2], MVal.nparr [3] 1 [1], MVal.atom 5],
        jaxInArgs p.1 = false → isNparr p.2 = isNdarray p.1)
    ∧ unflattenDC [PyType.jaxArray, PyType.ndarray, PyType.other]
        (flattenDC [PyType.jaxArray, PyType.ndarray, PyType.other]
          [MVal.jarr [1, 2], MVal.nparr [3] 1 [1], MVal.atom 5]).2
        (flattenDC [PyType.jaxArray, PyType.ndarray, PyType.other]
          [MVal.jarr [1, 2], MVal.nparr [3] 1 [1], MVal.atom 5]).1
      = some [MVal.jarr [1, 2], MVal.nparr [3] 1 [1], MVal.atom 5] :=
  ⟨by decide, by decide,
    flatten_roundtrip [PyType.jaxArray, PyType.ndarray, PyType.other]
      [MVal.jarr [1, 2], MVal.nparr [3] 1 [1], MVal.atom 5] (by decide) (by decide)⟩

/-!
Lemmas about path-based field replacement.
-/

theorem getField_setField_self (fs : List (String × RVal)) (f : String) (v : RVal)
    (h : hasField fs f = true) :
    getField (setField fs f v) f = some v := by
  induction fs with
  | nil => simp [hasField, getField] at h
  | cons p ps ih =>
    obtain ⟨n, w⟩ := p
    by_cases hn : n = f
    · subst hn
      simp [setField, getField]
    · have h2 : hasField ps f = true := by
        simpa [hasField, getField, hn] using h
      simp [setField, getField, hn, ih h2]

theorem getField_setField_ne (fs : List (String × RVal)) (f : String) (v : RVal)
    (g : String) (hg : g ≠ f) :
    getField (setField fs f v) g = getField fs g := by
  induction fs with
  | nil => simp [setField]
  | cons p ps ih =>
    obtain ⟨n, w⟩ := p
    by_cases hn : n = f
    · subst hn
      have hng : ¬ (n = g) := fun hc => hg (hc ▸ rfl)
      simp [setField, getField, hng]
    · by_cases hng : n = g
      · subst hng
        simp [setField, getField, hn]
      · simp [setField, getField, hn, hng, ih]

/-- C6: replacing a directly declared field by path (which calls the
installed `replace`) yields a record whose named field is the new value
and whose every other field is unchanged; the input record itself is
untouched (the model is purely functional, every output is a new value). -/
theorem tree_replace_direct (fs : List (String × RVal)) (f : String) (v : RVal)
    (h : hasField fs f = true) :
    treeReplace1 (.node fs) [f] v = .ok (.node (setField fs f v))
    ∧ getField (setField fs f v) f = some v
    ∧ ∀ g : String, g ≠ f → getField (setField fs f v) g = getField fs g := by
  refine ⟨?_, getField_setField_self fs f v h, fun g hg => getField_setField_ne fs f v g hg⟩
  simp [treeReplace1, h]

/-- Witness for C6 on a concrete two-field record. -/
theorem tree_replace_direct_witness :
    hasField [("x", RVal.intv 1), ("y", RVal.intv 2)] "x" = true
    ∧ (treeReplace1 (.node [("x", RVal.intv 1), ("y", RVal.intv 2)]) ["x"] (RVal.intv 9)
        = .ok (.node (setField [("x", RVal.intv 1), ("y", RVal.intv 2)] "x" (RVal.intv 9)))
      ∧ getField (setField [("x", RVal.intv 1), ("y", RVal.intv 2)] "x" (RVal.intv 9)) "x"
        = some (RVal.intv 9)
      ∧ ∀ g : String, g ≠ "x" →
          getField (setField [("x", RVal.intv 1), ("y", RVal.intv 2)] "x" (RVal.intv 9)) g
            = getField [("x", RVal.intv 1), ("y", RVal.intv 2)] g) :=
  ⟨by decide, tree_replace_direct [("x", RVal.intv 1), ("y", RVal.intv 2)] "x"
    (RVal.intv 9) (by decide)⟩

/-- C5 counterexample: `tree_replace` with the empty path string is not
the identity — `''.split('.')` is `['']`, so the call tries to replace a
field named `''` and fails (an UnknownField-style error), instead of
returning the record unchanged. -/
theorem tree_replace_empty_path_cex :
    tree_replace (.node [("x", RVal.intv 0)]) [("", RVal.intv 5)]
      ≠ .ok (.node [("x", RVal.intv 0)]) := by
  have h : tree_replace (.node [("x", RVal.intv 0)]) [("", RVal.intv 5)]
      = .error .unknownField := by
    simp only [tree_replace, List.foldl_cons, List.foldl_nil]
    rw [show splitDot "" = [""] from by decide]
    simp [treeReplace1, hasField, getField]
  rw [h]
  simp

/-- C5 amended: on a record with no field named `''` (every Python
dataclass, since `''` is not an identifier), `tree_replace` with the
empty path string fails with UnknownField, because `''.split('.')` is
`['']`; the internal `_tree_replace` with an empty segment *list* is the
identity. -/
theorem tree_replace_empty_path (fs : List (String × RVal)) (v : RVal)
    (h : hasField fs "" = false) :
    tree_replace (.node fs) [("", v)] = .error .unknownField
    ∧ ∀ b w : RVal, treeReplace1 b [] w = .ok b := by
  constructor
  · simp only [tree_replace, List.foldl_cons, List.foldl_nil]
    rw [show splitDot "" = [""] from by decide]
    simp [treeReplace1, h]
  · intro b w
    simp [treeReplace1]

/-- Witness for C5 (amended) on a concrete one-field record. -/
theorem tree_replace_empty_path_witness :
    hasField [("x", RVal.intv 0)] "" = false
    ∧ (tree_replace (.node [("x", RVal.intv 0)]) [("", RVal.intv 5)]
        = .error .unknownField
      ∧ ∀ b w : RVal, treeReplace1 b [] w = .ok b) :=
  ⟨by decide, tree_replace_empty_path [("x", RVal.intv 0)] (RVal.intv 5) (by decide)⟩

/-- C8 amended: a path segment that does not name a declared field of the
*record* at its level fails with UnknownField (both in the final-segment
`replace` case and in the descent case); but elements of a list-valued
field that lack the next segment are silently skipped, not an error (see
the counterexample). -/
theorem tree_replace_unknown_field (fs : List (String × RVal)) (a : String)
    (rest : List String) (val : RVal) (h : getField fs a = none) :
    treeReplace1 (.node fs) (a :: rest) val = .error .unknownField := by
  cases rest with
  | nil => simp [treeReplace1, hasField, h]
  | cons r1 rtail => simp [treeReplace1, h]

/-- Witness for C8 (amended) on a concrete record with a missing field. -/
theorem tree_replace_unknown_field_witness :
    getField [("q", RVal.intv 0)] "w" = none
    ∧ treeReplace1 (.node [("q", RVal.intv 0)]) ["w"] (RVal.intv 1)
      = .error .unknownField :=
  ⟨by rfl, tree_replace_unknown_field [("q", RVal.intv 0)] "w" [] (RVal.intv 1) (by rfl)⟩

/-- C8 counterexample: the path `"xs.y"` contains the segment `"y"` which
names no declared field of the single list element (it only declares
`"z"`), yet `tree_replace` succeeds and returns the record unchanged —
the element is silently skipped by the `continue` in the list branch,
contradicting the claim that any unknown segment fails with UnknownField. -/
theorem tree_replace_unknown_field_cex :
    hasAttr (RVal.node [("z", RVal.intv 0)]) "y" = false
    ∧ tree_replace (.node [("xs", RVal.listv [RVal.node [("z", RVal.intv 0)]])])
        [("xs.y", RVal.intv 5)]
      = .ok (.node [("xs", RVal.listv [RVal.node [("z", RVal.intv 0)]])]) := by
  constructor
  · decide
  · simp only [tree_replace, List.foldl_cons, List.foldl_nil]
    rw [show splitDot "xs.y" = ["xs", "y"] from by decide]
    simp [treeReplace1, replaceElems, getField, setField, hasField, hasAttr,
      hasIter, indexVal, Except.map]

theorem replaceElems_broadcast (f : String) (val : RVal) (hv : hasIter val = false) :
    ∀ (lst : List RVal) (i : Nat), (∀ g ∈ lst, hasAttr g f = true) →
    replaceElems lst i [f] f val = .ok (lst.map fun g => setFieldV g f val) := by
  intro lst
  induction lst with
  | nil => intro i _; simp [replaceElems]
  | cons g gs ih =>
    intro i hall
    have hg : hasAttr g f = true := hall g (by simp)
    cases g with
    | intv n => simp [hasAttr] at hg
    | listv es => simp [hasAttr] at hg
    | node gfs =>
      have hgf : hasField gfs f = true := hg
      simp only [replaceElems, hg, if_true, hv, Bool.false_eq_true, if_false]
      simp only [treeReplace1, hgf, if_true]
      rw [ih (i + 1) (fun g hgm => hall g (by simp [hgm]))]
      simp [Except.map, setFieldV]

theorem replaceElems_elementwise (f : String) (vs : List RVal) :
    ∀ (lst : List RVal) (i : Nat), (∀ g ∈ lst, hasAttr g f = true) →
    i + lst.length ≤ vs.length →
    replaceElems lst i [f] f (.listv vs)
      = .ok (List.zipWith (fun g v => setFieldV g f v) lst (vs.drop i)) := by
  intro lst
  induction lst with
  | nil => intro i _ _; simp [replaceElems]
  | cons g gs ih =>
    intro i hall hlen
    have hg : hasAttr g f = true := hall g (by simp)
    cases g with
    | intv n => simp [hasAttr] at hg
    | listv es => simp [hasAttr] at hg
    | node gfs =>
      have hgf : hasField gfs f = true := hg
      have hi : i < vs.length := by simp at hlen; omega
      have hget : vs.get? i = some (vs.get ⟨i, hi⟩) := List.get?_eq_get hi
      simp only [replaceElems, hg, if_true, hasIter, indexVal, hget]
      simp only [treeReplace1, hgf, if_true]
      rw [ih (i + 1) (fun g hgm => hall g (by simp [hgm])) (by simp at hlen ⊢; omega)]
      rw [List.drop_eq_getElem_cons hi]
      simp only [List.zipWith_cons_cons, Except.map, setFieldV, List.get_eq_getElem]

/-- C7: descending through a list-valued field whose elements all declare
the target field, a non-iterable value is broadcast — every element's
field becomes that same value — while a sequence value of the same length
as the list is applied elementwise, element `i` receiving `value[i]`. -/
theorem tree_replace_list_field (fs : List (String × RVal)) (a f : String)
    (lst : List RVal) (val : RVal) (vs : List RVal)
    (ha : getField fs a = some (.listv lst))
    (hall : ∀ g ∈ lst, hasAttr g f = true) :
    (hasIter val = false →
      treeReplace1 (.node fs) [a, f] val
        = .ok (.node (setField fs a (.listv (lst.map fun g => setFieldV g f val)))))
    ∧ (vs.length = lst.length →
      treeReplace1 (.node fs) [a, f] (.listv vs)
        = .ok (.node (setField fs a
            (.listv (List.zipWith (fun g v => setFieldV g f v) lst vs))))) := by
  constructor
  · intro hv
    simp only [treeReplace1, ha]
    rw [replaceElems_broadcast f val hv lst 0 hall]
    simp [Except.map]
  · intro hlen
    simp only [treeReplace1, ha]
    rw [replaceElems_elementwise f vs lst 0 hall (by omega)]
    simp [Except.map]

/-- Witness for C7: a record with a two-element list field, broadcast of
a scalar and elementwise application of a two-element sequence. -/
theorem tree_replace_list_field_witness :
    getField [("xs", RVal.listv [RVal.node [("y", RVal.intv 0)], RVal.node [("y", RVal.intv 1)]])] "xs"
      = some (.listv [RVal.node [("y", RVal.intv 0)], RVal.node [("y", RVal.intv 1)]])
    ∧ (∀ g ∈ [RVal.node [("y", RVal.intv 0)], RVal.node [("y", RVal.intv 1)]],
        hasAttr g "y" = true)
    ∧ ((hasIter (RVal.intv 7) = false →
        treeReplace1
            (.node [("xs", RVal.listv [RVal.node [("y", RVal.intv 0)], RVal.node [("y", RVal.intv 1)]])])
            ["xs", "y"] (RVal.intv 7)
          = .ok (.node (setField
              [("xs", RVal.listv [RVal.node [("y", RVal.intv 0)], RVal.node [("y", RVal.intv 1)]])]
              "xs"
              (.listv ([RVal.node [("y", RVal.intv 0)], RVal.node [("y", RVal.intv 1)]].map
                fun g => setFieldV g "y" (RVal.intv 7))))))
      ∧ ([RVal.intv 8, RVal.intv 9].length
            = [RVal.node [("y", RVal.intv 0)], RVal.node [("y", RVal.intv 1)]].length →
        treeReplace1
            (.node [("xs", RVal.listv [RVal.node [("y", RVal.intv 0)], RVal.node [("y", RVal.intv 1)]])])
            ["xs", "y"] (.listv [RVal.intv 8, RVal.intv 9])
          = .ok (.node (setField
              [("xs", RVal.listv [RVal.node [("y", RVal.intv 0)], RVal.node [("y", RVal.intv 1)]])]
              "xs"
              (.listv (List.zipWith (fun g v => setFieldV g "y" v)
                [RVal.node [("y", RVal.intv 0)], RVal.node [("y", RVal.intv 1)]]
                [RVal.intv 8, RVal.intv 9])))))) :=
  ⟨by rfl, by decide,
    tree_replace_list_field
      [("xs", RVal.listv [RVal.node [("y", RVal.intv 0)], RVal.node [("y", RVal.intv 1)]])]
      "xs" "y" [RVal.node [("y", RVal.intv 0)], RVal.node [("y", RVal.intv 1)]]
      (RVal.intv 7) [RVal.intv 8, RVal.intv 9] (by rfl) (by decide)⟩

theorem replaceElems_too_short (f : String) (vs : List RVal) :
    ∀ (lst : List RVal) (i : Nat), (∀ g ∈ lst, hasAttr g f = true) →
    i ≤ vs.length → vs.length < i + lst.length →
    replaceElems lst i [f] f (.listv vs) = .error .lengthMismatch := by
  intro lst
  induction lst with
  | nil => intro i _ hle hlt; simp at hlt; omega
  | cons g gs ih =>
    intro i hall hle hlt
    have hg : hasAttr g f = true := hall g (by simp)
    cases g with
    | intv n => simp [hasAttr] at hg
    | listv es => simp [hasAttr] at hg
    | node gfs =>
      have hgf : hasField gfs f = true := hg
      by_cases hi : i < vs.length
      · have hget : vs.get? i = some (vs.get ⟨i, hi⟩) := List.get?_eq_get hi
        simp only [replaceElems, hg, if_true, hasIter, indexVal, hget]
        simp only [treeReplace1, hgf, if_true]
        rw [ih (i + 1) (fun g hgm => hall g (by simp [hgm])) (by omega)
          (by simp at hlt ⊢; omega)]
        simp [Except.map]
      · have hieq : vs.length ≤ i := by omega
        have hget : vs.get? i = none := List.get?_eq_none.mpr hieq
        simp only [replaceElems, hg, if_true, hasIter, indexVal, hget]

/-- C9 amended: a per-element value sequence *shorter* than the target
list fails with the IndexError modelled as LengthMismatch (when every
list element declares the target field, so no element is skipped); a
*longer* sequence does not fail — its excess entries are silently ignored
(see the counterexample). -/
theorem tree_replace_short_seq (fs : List (String × RVal)) (a f : String)
    (lst : List RVal) (vs : List RVal)
    (ha : getField fs a = some (.listv lst))
    (hall : ∀ g ∈ lst, hasAttr g f = true)
    (hlen : vs.length < lst.length) :
    treeReplace1 (.node fs) [a, f] (.listv vs) = .error .lengthMismatch := by
  simp only [treeReplace1, ha]
  rw [replaceElems_too_short f vs lst 0 hall (by omega) (by omega)]
  simp [Except.map]

/-- Witness for C9 (amended): a one-element value sequence against a
two-element list raises the length error. -/
theorem tree_replace_short_seq_witness :
    getField [("xs", RVal.listv [RVal.node [("y", RVal.intv 0)], RVal.node [("y", RVal.intv 1)]])] "xs"
      = some (.listv [RVal.node [("y", RVal.intv 0)], RVal.node [("y", RVal.intv 1)]])
    ∧ (∀ g ∈ [RVal.node [("y", RVal.intv 0)], RVal.node [("y", RVal.intv 1)]],
        hasAttr g "y" = true)
    ∧ [RVal.intv 7].length < [RVal.node [("y", RVal.intv 0)], RVal.node [("y", RVal.intv 1)]].length
    ∧ treeReplace1
        (.node [("xs", RVal.listv [RVal.node [("y", RVal.intv 0)], RVal.node [("y", RVal.intv 1)]])])
        ["xs", "y"] (.listv [RVal.intv 7])
      = .error .lengthMismatch :=
  ⟨by rfl, by decide, by decide,
    tree_replace_short_seq
      [("xs", RVal.listv [RVal.node [("y", RVal.intv 0)], RVal.node [("y", RVal.intv 1)]])]
      "xs" "y" [RVal.node [("y", RVal.intv 0)], RVal.node [("y", RVal.intv 1)]]
      [RVal.intv 7] (by rfl) (by decide) (by decide)⟩

/-- C9 counterexample: a per-element value sequence of length 2 against a
list of length 1 — lengths differ, but the call succeeds (the excess
value is silently ignored) instead of failing with LengthMismatch. -/
theorem tree_replace_long_seq_cex :
    treeReplace1 (.node [("xs", RVal.listv [RVal.node [("y", RVal.intv 0)]])])
        ["xs", "y"] (.listv [RVal.intv 1, RVal.intv 2])
      = .ok (.node [("xs", RVal.listv [RVal.node [("y", RVal.intv 1)]])]) := by
  simp [treeReplace1, replaceElems, getField, setField, hasField, hasAttr,
    hasIter, indexVal, Except.map, List.get?]

end Mjx
